import Mathlib

/-!
Verification development for the pachyderm commit-provenance core.

Part 1 models the object tracker of
`src/internal/storage/track/tracker.go`.  The `Tracker` interface and its
`TestTracker` suite are in the repository; the Postgres implementation is
not, so the operational definitions below are modelled from the spec and
from the interface's documented contract.

Part 2 models the commit/branch/provenance data model and the propagation
engine of spec sections 3, 4.1, 4.2, 4.3 (the Go implementation of the
engine is likewise absent from the sources; only its integration tests in
`src/server/pachyderm_test.go` are present).
-/

namespace Track

/-- Modelled from the spec: the state of the object tracker
(`track.Tracker`; the Postgres implementation `NewPostgresTracker` is
missing from the sources).  An association list mapping each object id to
the list of ids it points to (its "pointsTo" / downstream set). -/
abbrev TrackerState := List (String × List String)

/-- Errors of the tracker, mirroring `ErrDifferentObjectExists`,
`ErrDanglingRef` and `ErrSelfReference` in `tracker.go`. -/
inductive TrackErr where
  | differentObjectExists
  | danglingRef
  | selfReference
deriving DecidableEq, Repr

/-- Does an object with the given id exist? -/
def existsObj (s : TrackerState) (id : String) : Bool :=
  s.any (fun p => p.fst == id)

/-- The pointsTo list of the object with the given id, if it exists. -/
def getPointsTo (s : TrackerState) (id : String) : Option (List String) :=
  (s.find? (fun p => p.fst == id)).map (fun p => p.snd)

/-- Two reference lists denote the same reference set. -/
def sameSet (a b : List String) : Bool :=
  a.all (fun x => b.contains x) && b.all (fun x => a.contains x)

/-- Modelled from the spec: `Tracker.CreateTx` (implementation missing from
the sources; contract from the interface doc comment and the `TestTracker`
suite): creates an object with the given id and pointers to everything in
`pointsTo`.  Re-creation with an identical reference set succeeds as a
no-op; it errors with `ErrDifferentObjectExists` if the object already
exists with a different reference set, with `ErrSelfReference` if the
object would reference itself, and with `ErrDanglingRef` if any element of
`pointsTo` does not exist — in every error case before any write. -/
def createTx (s : TrackerState) (id : String) (pointsTo : List String) :
    Except TrackErr TrackerState :=
  match getPointsTo s id with
  | some existing =>
      if sameSet existing pointsTo then Except.ok s
      else Except.error TrackErr.differentObjectExists
  | none =>
      if pointsTo.contains id then Except.error TrackErr.selfReference
      else if pointsTo.all (fun p => existsObj s p) then
        Except.ok ((id, pointsTo) :: s)
      else Except.error TrackErr.danglingRef

/-- Modelled from the spec: `Tracker.DeleteTx` (implementation missing from
the sources): deletes the object, or returns `ErrDanglingRef` if deleting
it would create dangling references (some other object still points to
it).  If the id does not exist, no error is returned and nothing changes. -/
def deleteTx (s : TrackerState) (id : String) : Except TrackErr TrackerState :=
  if existsObj s id then
    if s.any (fun p => !(p.fst == id) && p.snd.contains id) then
      Except.error TrackErr.danglingRef
    else
      Except.ok (s.filter (fun p => !(p.fst == id)))
  else Except.ok s

/-- No stored reference dangles: every pointsTo entry of every object
refers to an object that exists. -/
def noDangling (s : TrackerState) : Bool :=
  s.all (fun p => p.snd.all (fun q => existsObj s q))

/-- A tracker operation: create an object or delete one. -/
inductive TrackOp where
  | create (id : String) (pointsTo : List String)
  | delete (id : String)

/-- Apply one operation; a rejected operation leaves the state unchanged
(errors are rejected before any write). -/
def applyOp (s : TrackerState) : TrackOp → TrackerState
  | TrackOp.create id pts =>
      match createTx s id pts with
      | Except.ok s' => s'
      | Except.error _ => s
  | TrackOp.delete id =>
      match deleteTx s id with
      | Except.ok s' => s'
      | Except.error _ => s

/-- Run a list of operations from the empty tracker. -/
def runOps (ops : List TrackOp) : TrackerState :=
  ops.foldl applyOp []

theorem createTx_existing (s : TrackerState) (id : String)
    (pts existing : List String)
    (hfind : getPointsTo s id = some existing) :
    createTx s id pts =
      if sameSet existing pts then Except.ok s
      else Except.error TrackErr.differentObjectExists := by
  unfold createTx
  rw [hfind]

theorem createTx_fresh (s : TrackerState) (id : String) (pts : List String)
    (hfind : getPointsTo s id = none) :
    createTx s id pts =
      if pts.contains id then Except.error TrackErr.selfReference
      else if pts.all (fun p => existsObj s p) then Except.ok ((id, pts) :: s)
      else Except.error TrackErr.danglingRef := by
  unfold createTx
  rw [hfind]

theorem existsObj_cons (p : String × List String) (s : TrackerState)
    (q : String) (h : existsObj s q = true) :
    existsObj (p :: s) q = true := by
  unfold existsObj at *
  simp only [List.any_cons, Bool.or_eq_true]
  exact Or.inr h

theorem noDangling_createTx (s : TrackerState) (id : String)
    (pts : List String) (s' : TrackerState)
    (hs : noDangling s = true) (h : createTx s id pts = Except.ok s') :
    noDangling s' = true := by
  cases hfind : getPointsTo s id with
  | some existing =>
      rw [createTx_existing s id pts existing hfind] at h
      by_cases hsame : sameSet existing pts = true
      · rw [if_pos hsame] at h
        cases h
        exact hs
      · rw [if_neg hsame] at h
        cases h
  | none =>
      rw [createTx_fresh s id pts hfind] at h
      by_cases hself : pts.contains id = true
      · rw [if_pos hself] at h
        cases h
      · rw [if_neg hself] at h
        by_cases hall : pts.all (fun p => existsObj s p) = true
        · rw [if_pos hall] at h
          cases h
          unfold noDangling at *
          simp only [List.all_cons, Bool.and_eq_true]
          constructor
          · simp only [List.all_eq_true] at hall ⊢
            intro q hq
            exact existsObj_cons _ _ _ (hall q hq)
          · simp only [List.all_eq_true] at hs ⊢
            intro p hp q hq
            exact existsObj_cons _ _ _ (hs p hp q hq)
        · rw [if_neg hall] at h
          cases h

theorem existsObj_filter_ne (s : TrackerState) (id q : String)
    (hex : existsObj s q = true) (hne : q ≠ id) :
    existsObj (s.filter (fun p => !(p.fst == id))) q = true := by
  unfold existsObj at *
  simp only [List.any_eq_true] at hex ⊢
  obtain ⟨p, hp, hpq⟩ := hex
  refine ⟨p, ?_, hpq⟩
  simp only [List.mem_filter]
  refine ⟨hp, ?_⟩
  simp only [beq_iff_eq] at hpq ⊢
  simp [hpq, hne]

theorem noDangling_deleteTx (s : TrackerState) (id : String)
    (s' : TrackerState)
    (hs : noDangling s = true) (h : deleteTx s id = Except.ok s') :
    noDangling s' = true := by
  unfold deleteTx at h
  by_cases hex : existsObj s id = true
  case pos =>
    rw [if_pos hex] at h
    by_cases hup : s.any (fun p => !(p.fst == id) && p.snd.contains id) = true
    case pos => rw [if_pos hup] at h; cases h
    case neg =>
      rw [if_neg hup] at h
      cases h
      unfold noDangling at *
      simp only [List.all_eq_true] at hs ⊢
      intro p hp
      simp only [List.mem_filter] at hp
      obtain ⟨hpmem, hpne⟩ := hp
      intro q hq
      have hqex : existsObj s q = true := hs p hpmem q hq
      have hqne : q ≠ id := by
        intro hqeq
        subst hqeq
        apply hup
        simp only [List.any_eq_true]
        refine ⟨p, hpmem, ?_⟩
        simp only [Bool.and_eq_true]
        exact ⟨hpne, by simp [hq]⟩
      exact existsObj_filter_ne s id q hqex hqne
  case neg =>
    rw [if_neg hex] at h
    cases h
    exact hs

theorem noDangling_applyOp (s : TrackerState) (op : TrackOp)
    (hs : noDangling s = true) : noDangling (applyOp s op) = true := by
  cases op with
  | create id pts =>
      simp only [applyOp]
      cases h : createTx s id pts with
      | ok s' => exact noDangling_createTx s id pts s' hs h
      | error _ => exact hs
  | delete id =>
      simp only [applyOp]
      cases h : deleteTx s id with
      | ok s' => exact noDangling_deleteTx s id s' hs h
      | error _ => exact hs

theorem noDangling_runOps (ops : List TrackOp) :
    noDangling (runOps ops) = true := by
  unfold runOps
  have hgen : ∀ (l : List TrackOp) (s : TrackerState),
      noDangling s = true → noDangling (l.foldl applyOp s) = true := by
    intro l
    induction l with
    | nil => intro s hs; exact hs
    | cons op rest ih =>
        intro s hs
        exact ih (applyOp s op) (noDangling_applyOp s op hs)
  exact hgen ops [] (by decide)

/-- A create whose pointsTo targets do not all exist is rejected with
`ErrDanglingRef` and leaves the state unchanged (rejected before any
write). -/
theorem createTx_dangling_rejected (s : TrackerState) (id : String)
    (pts : List String) (hfind : getPointsTo s id = none) (hself : id ∉ pts)
    (hmissing : ∃ p ∈ pts, existsObj s p = false) :
    createTx s id pts = Except.error TrackErr.danglingRef ∧
    applyOp s (TrackOp.create id pts) = s := by
  have herr : createTx s id pts = Except.error TrackErr.danglingRef := by
    rw [createTx_fresh s id pts hfind]
    rw [if_neg (by simpa using hself)]
    rw [if_neg ?_]
    intro hall
    simp only [List.all_eq_true] at hall
    obtain ⟨p, hp, hfalse⟩ := hmissing
    rw [hall p hp] at hfalse
    cases hfalse
  refine ⟨herr, ?_⟩
  simp only [applyOp, herr]

/-- A delete of an object that another object still points to is rejected
with `ErrDanglingRef` and leaves the state unchanged (rejected before any
write). -/
theorem deleteTx_dangling_rejected (s : TrackerState) (id : String)
    (hex : existsObj s id = true)
    (hpointer : ∃ p ∈ s, p.fst ≠ id ∧ id ∈ p.snd) :
    deleteTx s id = Except.error TrackErr.danglingRef ∧
    applyOp s (TrackOp.delete id) = s := by
  have herr : deleteTx s id = Except.error TrackErr.danglingRef := by
    unfold deleteTx
    rw [if_pos hex]
    rw [if_pos ?_]
    simp only [List.any_eq_true]
    obtain ⟨p, hp, hne, hcont⟩ := hpointer
    refine ⟨p, hp, ?_⟩
    simp only [Bool.and_eq_true]
    exact ⟨by simp [hne], by simpa using hcont⟩
  refine ⟨herr, ?_⟩
  simp only [applyOp, herr]

/-- Claim C9: retry of a step that already took effect is a no-op: deleting
an object that does not exist returns no error and changes nothing, and
re-creating an existing object with an identical reference set succeeds
without creating a duplicate or modifying the existing object. -/
theorem claim_C9_retry_idempotent :
    (∀ (s : TrackerState) (id : String),
      existsObj s id = false → deleteTx s id = Except.ok s) ∧
    (∀ (s : TrackerState) (id : String) (pts existing : List String),
      getPointsTo s id = some existing → sameSet existing pts = true →
      createTx s id pts = Except.ok s) := by
  constructor
  · intro s id hex
    unfold deleteTx
    rw [if_neg (by simp [hex])]
  · intro s id pts existing hfind hsame
    rw [createTx_existing s id pts existing hfind]
    rw [if_pos hsame]

/-- Witness for C9 at concrete inputs: deleting a nonexistent id succeeds
and leaves the (empty) state unchanged; re-creating an object with the
identical reference set returns the state unchanged. -/
theorem claim_C9_witness :
    deleteTx [] "gone" = Except.ok [] ∧
    createTx [("3", ["1", "2"]), ("2", []), ("1", [])] "3" ["1", "2"] =
      Except.ok [("3", ["1", "2"]), ("2", []), ("1", [])] := by
  constructor
  · exact claim_C9_retry_idempotent.1 [] "gone" (by decide)
  · exact claim_C9_retry_idempotent.2 [("3", ["1", "2"]), ("2", []), ("1", [])]
      "3" ["1", "2"] ["1", "2"] (by decide) (by decide)

/-- Claim C10: if an object with a given id already exists, `CreateTx` with
a different reference set fails with `ErrDifferentObjectExists`, and the
existing object and its references are left unchanged. -/
theorem claim_C10_different_object_exists :
    ∀ (s : TrackerState) (id : String) (pts existing : List String),
      getPointsTo s id = some existing → sameSet existing pts = false →
      createTx s id pts = Except.error TrackErr.differentObjectExists ∧
      applyOp s (TrackOp.create id pts) = s := by
  intro s id pts existing hfind hdiff
  have herr : createTx s id pts = Except.error TrackErr.differentObjectExists := by
    rw [createTx_existing s id pts existing hfind]
    rw [if_neg (by simp [hdiff])]
  exact ⟨herr, by simp only [applyOp, herr]⟩

/-- Witness for C10 at the concrete input of the `ErrDifferentObjectExists`
test case: object "3" exists pointing to "1" and "2"; recreating it
pointing only to "1" fails and the state is unchanged. -/
theorem claim_C10_witness :
    createTx [("3", ["1", "2"]), ("2", []), ("1", [])] "3" ["1"] =
      Except.error TrackErr.differentObjectExists ∧
    applyOp [("3", ["1", "2"]), ("2", []), ("1", [])]
      (TrackOp.create "3" ["1"]) = [("3", ["1", "2"]), ("2", []), ("1", [])] :=
  claim_C10_different_object_exists [("3", ["1", "2"]), ("2", []), ("1", [])]
    "3" ["1"] ["1", "2"] (by decide) (by decide)

end Track

namespace Pfs

/-- Modelled from the spec: a branch of the commit store (spec section 3;
the Go implementation of the commit store and propagation engine is
missing from the sources, only its integration tests in
`src/server/pachyderm_test.go` are present).  Branch identifiers are
natural numbers (spec section 9: an arena of branches with edges as index
pairs).  `directProv` is the branch's declared direct branch provenance:
the upstream branches its HEAD is derived from.  `head` is the current
HEAD commit id, or none.  `stopped` marks a paused/stopped pipeline;
`pending` records that upstream changes arrived while stopped (spec
section 4.2 step 2c). -/
structure Branch where
  bid : Nat
  directProv : List Nat
  head : Option Nat
  stopped : Bool
  pending : Bool
deriving DecidableEq, Repr

/-- Modelled from the spec: a commit (spec section 3).  `parent` is the
previous commit on the same branch chain; `directProvenance` is the set of
commit ids — one per upstream branch — this commit was computed from;
`commitSetId` groups every commit created by one propagation run;
`finished`/`finishError` give the lifecycle state and finish reason;
`size` is the aggregate (cumulative) size in bytes recorded at this
commit, used for repo size accounting. -/
structure Commit where
  cid : Nat
  branch : Nat
  parent : Option Nat
  directProvenance : List Nat
  commitSetId : Nat
  finished : Bool
  finishError : Bool
  size : Nat
deriving DecidableEq, Repr

/-- Modelled from the spec: the commit store state — all branches, all
commits, the children back-references, and the next fresh commit id.
`childIndex` holds one `(parent, child)` entry per parent/child commit
pair: the `children` back-references of spec section 3, maintained
incrementally as commits are created and repaired on removal. -/
structure PfsState where
  branches : List Branch
  commits : List Commit
  childIndex : List (Nat × Nat)
  nextCommitId : Nat
deriving DecidableEq, Repr

/-- Find a branch by id. -/
def findBranch (s : PfsState) (b : Nat) : Option Branch :=
  s.branches.find? (fun br => br.bid == b)

/-- Find a commit by id. -/
def findCommitById (s : PfsState) (c : Nat) : Option Commit :=
  s.commits.find? (fun x => x.cid == c)

/-- Apply a function to the branch with the given id. -/
def updateBranch (s : PfsState) (b : Nat) (f : Branch → Branch) : PfsState :=
  { s with branches := s.branches.map (fun br => if br.bid == b then f br else br) }

/-- The commits currently on a given branch. -/
def commitsOn (s : PfsState) (b : Nat) : List Commit :=
  s.commits.filter (fun c => c.branch == b)

/-- The branches directly provenant on branch `b` (spec section 4.1). -/
def directDownstream (s : PfsState) (b : Nat) : List Nat :=
  (s.branches.filter (fun br => br.directProv.contains b)).map (fun br => br.bid)

/-- Modelled from the spec: breadth-first closure of the branches
downstream of a frontier, fuelled by the number of branches. -/
def downClosureAux (s : PfsState) : Nat → List Nat → List Nat → List Nat
  | 0, _, visited => visited
  | fuel + 1, frontier, visited =>
      let next := (((frontier.map (directDownstream s)).flatten).filter
        (fun x => !(visited.contains x))).dedup
      if next.isEmpty then visited
      else downClosureAux s fuel next (visited ++ next)

/-- All branches reachable downstream from `b` (including `b`). -/
def downClosure (s : PfsState) (b : Nat) : List Nat :=
  downClosureAux s s.branches.length [b] [b]

/-- Modelled from the spec: topological ordering of a set of branches
(spec section 4.1): repeatedly emit the first pending branch, in branch
creation order (the tie-break), none of whose declared upstream branches
is still pending. -/
def topoAux (s : PfsState) : Nat → List Nat → List Nat → List Nat
  | 0, pend, ord => ord ++ pend
  | fuel + 1, pend, ord =>
      match pend.find? (fun x =>
        match findBranch s x with
        | some br => br.directProv.all (fun u => !(pend.contains u))
        | none => true) with
      | some x => topoAux s fuel (pend.erase x) (ord ++ [x])
      | none => ord ++ pend

/-- Modelled from the spec: the branches affected by an advance of branch
`b` — every branch transitively downstream of `b` — in topological order
with ties broken by branch creation order (spec section 4.2 step 2). -/
def affectedTopo (s : PfsState) (b : Nat) : List Nat :=
  let cls := downClosure s b
  let aff := ((s.branches.map (fun br => br.bid)).filter
    (fun x => cls.contains x)).filter (fun x => !(x == b))
  topoAux s aff.length aff []

/-- Modelled from the spec: the desired direct provenance of a new commit
on a branch — for every upstream branch the branch declares provenance on,
that branch's current HEAD commit (spec section 4.2 step 2a). -/
def desiredProv (s : PfsState) (br : Branch) : List Nat :=
  br.directProv.filterMap (fun ub => (findBranch s ub).bind (fun u => u.head))

/-- Does commit `c`'s direct provenance already include an entry for every
one of the given upstream branches? (spec section 4.2 step 2b). -/
def provCovers (s : PfsState) (c : Commit) (ubs : List Nat) : Bool :=
  ubs.all (fun ub => c.directProvenance.any (fun p =>
    match findCommitById s p with
    | some pc => pc.branch == ub
    | none => false))

/-- Can the branch's current HEAD be reused instead of creating a
duplicate commit: it is an open commit whose direct provenance already
covers every declared upstream branch (spec section 4.2 step 2b). -/
def canReuse (s : PfsState) (br : Branch) : Bool :=
  match br.head with
  | none => false
  | some h =>
      match findCommitById s h with
      | none => false
      | some hc => !hc.finished && provCovers s hc br.directProv

/-- Record the children back-reference of a newly created commit: when the
new commit has a parent, one `(parent, child)` entry is appended to the
child index (spec section 3: children are maintained incrementally). -/
def addChildEntry (idx : List (Nat × Nat)) (parent : Option Nat)
    (child : Nat) : List (Nat × Nat) :=
  match parent with
  | none => idx
  | some p => idx ++ [(p, child)]

/-- Modelled from the spec: create a new open commit on a branch with the
computed direct provenance and the triggering commit set identifier, and
advance the branch HEAD to it (spec section 4.2 step 2d).  The content
size of a freshly created open commit is 0; sizes are recorded by writers,
which are outside the engine. -/
def createCommitOn (s : PfsState) (setId : Nat) (br : Branch) : PfsState :=
  let c : Commit :=
    { cid := s.nextCommitId, branch := br.bid, parent := br.head,
      directProvenance := desiredProv s br, commitSetId := setId,
      finished := false, finishError := false, size := 0 }
  { branches := s.branches.map (fun x =>
      if x.bid == br.bid then { x with head := some c.cid } else x),
    commits := s.commits ++ [c],
    childIndex := addChildEntry s.childIndex br.head s.nextCommitId,
    nextCommitId := s.nextCommitId + 1 }

/-- Record that a stopped branch has pending upstream changes (spec
section 4.2 step 2c). -/
def setPending (s : PfsState) (b : Nat) : PfsState :=
  updateBranch s b (fun br => { br with pending := true })

/-- Modelled from the spec: one step of the propagation algorithm for a
downstream branch `d` (spec section 4.2 step 2): a stopped branch gets no
commit, only a pending mark; an open HEAD already covering every upstream
branch is reused; otherwise a new open commit is created with the desired
direct provenance and the commit set identifier of the triggering run. -/
def propagateStep (s : PfsState) (setId : Nat) (d : Nat) : PfsState :=
  match findBranch s d with
  | none => s
  | some br =>
      if br.stopped then setPending s d
      else if canReuse s br then s
      else createCommitOn s setId br

/-- Modelled from the spec: process the affected branches in the given
order, each by one propagation step (spec section 4.2 step 2). -/
def propagateList (s : PfsState) (setId : Nat) (order : List Nat) : PfsState :=
  order.foldl (fun st d => propagateStep st setId d) s

/-- Modelled from the spec: `StartCommit` — open a commit directly on a
branch, outside propagation (spec section 6).  The new commit's commit set
identifier equals its own id (the identifier of a commit set equals the id
of the commit that triggered it, spec section 3), and the branch HEAD
advances to it.  `delta` is the size in bytes added by the write. -/
def startCommit (s : PfsState) (b : Nat) (delta : Nat) : PfsState :=
  match findBranch s b with
  | none => s
  | some br =>
      let base := match br.head.bind (findCommitById s) with
        | some h => h.size
        | none => 0
      let c : Commit :=
        { cid := s.nextCommitId, branch := b, parent := br.head,
          directProvenance := [], commitSetId := s.nextCommitId,
          finished := false, finishError := false, size := base + delta }
      { branches := s.branches.map (fun x =>
          if x.bid == b then { x with head := some c.cid } else x),
        commits := s.commits ++ [c],
        childIndex := addChildEntry s.childIndex br.head s.nextCommitId,
        nextCommitId := s.nextCommitId + 1 }

/-- Mark one commit finished with the given finish reason, leaving every
other field (and every other commit) unchanged. -/
def markFinished (cid : Nat) (err : Bool) (x : Commit) : Commit :=
  if x.cid == cid then { x with finished := true, finishError := err } else x

/-- Modelled from the spec: `FinishCommit` — mark the commit finished with
the given finish reason (`err` true means finished-with-error: failure is
data, not a transaction abort), then propagate to the affected downstream
branches in topological order, under the triggering commit's commit set
identifier (spec sections 4.2 and 4.4). -/
def finishCommit (s : PfsState) (cid : Nat) (err : Bool) : PfsState :=
  match findCommitById s cid with
  | none => s
  | some c =>
      if c.finished then s
      else
        let s1 : PfsState :=
          { s with commits := s.commits.map (markFinished cid err) }
        propagateList s1 c.commitSetId (affectedTopo s1 c.branch)

/-- Modelled from the spec: `StopPipeline` — synchronously mark the
pipeline's output branch stopped; no commit-level state changes (spec
section 4.4). -/
def stopPipeline (s : PfsState) (b : Nat) : PfsState :=
  updateBranch s b (fun br => { br with stopped := true })

/-- Modelled from the spec: `StartPipeline` — clear the stopped flag; if
upstream changes arrived while stopped, run exactly one catch-up
propagation for the branch, triggered by (and identified with) the
catch-up commit itself (spec sections 4.2 step 2c and 4.4). -/
def startPipeline (s : PfsState) (b : Nat) : PfsState :=
  match findBranch s b with
  | none => s
  | some br =>
      let s1 := updateBranch s b (fun x => { x with stopped := false, pending := false })
      if br.pending then propagateList s1 s1.nextCommitId (b :: affectedTopo s1 b)
      else s1

/-- Errors of the branch-graph validation (spec sections 4.1 and 7:
graph-invariant violations and dangling branch references are rejected
synchronously at the call that would introduce them). -/
inductive PfsErr where
  | cyclicProvenance
  | danglingBranch
deriving DecidableEq, Repr

/-- Fuelled reachability along declared direct-provenance edges: can
branch `y` be reached from branch `x` by following upstream edges in at
most `fuel` steps (at least one step)? -/
def reachesUp (s : PfsState) : Nat → Nat → Nat → Bool
  | 0, _, _ => false
  | fuel + 1, x, y =>
      match findBranch s x with
      | none => false
      | some br =>
          br.directProv.contains y ||
            br.directProv.any (fun u => reachesUp s fuel u y)

/-- Does a branch with the given id exist? -/
def existsBranch (s : PfsState) (b : Nat) : Bool :=
  (findBranch s b).isSome

/-- Modelled from the spec: `CreateBranch` — declare (or retarget) the
direct provenance edges of a branch at pipeline create/update time (spec
sections 4.1 and 6).  An edge set that would close a cycle — in particular
the branch taking itself as provenance, directly or transitively — is
rejected with a cyclic-provenance error; a nonexistent branch given as
provenance is a dangling reference, rejected before any write.  No
commit-level state is ever touched. -/
def createBranch (s : PfsState) (bid : Nat) (provs : List Nat) :
    Except PfsErr PfsState :=
  if provs.contains bid ||
      provs.any (fun p => reachesUp s s.branches.length p bid) then
    Except.error PfsErr.cyclicProvenance
  else if !(provs.all (fun p => existsBranch s p)) then
    Except.error PfsErr.danglingBranch
  else
    Except.ok (match findBranch s bid with
      | some _ => updateBranch s bid (fun br => { br with directProv := provs })
      | none =>
          { s with branches := s.branches ++
              [{ bid := bid, directProv := provs, head := none,
                 stopped := false, pending := false }] })

/-- The ids of the commits belonging to a commit set. -/
def commitSetIds (s : PfsState) (setId : Nat) : List Nat :=
  (s.commits.filter (fun c => c.commitSetId == setId)).map (fun c => c.cid)

/-- Pointer repair of one branch when commit `cid` (whose record is `c`)
is removed: a HEAD at the removed commit moves to the commit's parent (or
none). -/
def repairBranch (c : Commit) (cid : Nat) (br : Branch) : Branch :=
  if br.head == some cid then { br with head := c.parent } else br

/-- Pointer repair of one surviving commit when commit `cid` (whose record
is `c`) is removed: a child of `cid` is re-parented to `c`'s parent, and
`cid` is deleted from the direct provenance (the referencing commit is not
otherwise modified). -/
def repairCommit (c : Commit) (cid : Nat) (x : Commit) : Commit :=
  let x1 := if x.parent == some cid then { x with parent := c.parent } else x
  { x1 with directProvenance :=
      x1.directProvenance.filter (fun q => !(q == cid)) }

/-- Repair of the children back-references when commit `cid` (whose
record is `c`) is removed: the removed commit disappears from every
children list (entries whose child is `cid` are dropped), and the removed
commit's own children are re-parented to `c`'s parent (entries whose
parent is `cid` are re-owned by `c.parent`, or dropped when there is
none). -/
def repairChildIndex (c : Commit) (cid : Nat)
    (idx : List (Nat × Nat)) : List (Nat × Nat) :=
  (idx.filter (fun e => !(e.snd == cid))).filterMap (fun e =>
    if e.fst == cid then
      match c.parent with
      | some p => some (p, e.snd)
      | none => none
    else some e)

/-- Modelled from the spec: removal of one commit during `Squash` (spec
section 4.3): a branch HEAD at the commit moves to the commit's parent (or
none); every child of the commit is re-parented to the commit's parent;
the commit's entry is deleted from the direct provenance of any commit
that referenced it (the referencing commits are not otherwise modified);
the commit's own record is deleted. -/
def removeCommit (s : PfsState) (cid : Nat) : PfsState :=
  match findCommitById s cid with
  | none => s
  | some c =>
      { branches := s.branches.map (repairBranch c cid),
        commits := (s.commits.filter (fun x => !(x.cid == cid))).map
          (repairCommit c cid),
        childIndex := repairChildIndex c cid s.childIndex,
        nextCommitId := s.nextCommitId }

/-- Modelled from the spec: `Squash(commitSetID)` — remove every commit of
the set, across every repo, repairing HEADs, parent pointers and
provenance entries (spec section 4.3). -/
def squashCommitSet (s : PfsState) (setId : Nat) : PfsState :=
  (commitSetIds s setId).foldl removeCommit s

/-- Modelled from the spec: a repo's reported aggregate size — the
cumulative size recorded at the HEAD of its (master) branch, or 0 when the
branch has no HEAD (`InspectRepo` size accounting exercised by
`TestRepoSize`). -/
def repoSize (s : PfsState) (b : Nat) : Nat :=
  match findBranch s b with
  | none => 0
  | some br =>
      match br.head.bind (findCommitById s) with
      | some c => c.size
      | none => 0

/-- Shorthand for a live (not stopped, not pending) branch. -/
def mkBranch (bid : Nat) (directProv : List Nat) (head : Option Nat) : Branch :=
  { bid := bid, directProv := directProv, head := head,
    stopped := false, pending := false }

/-- The diamond provenance DAG of `TestProvenance2`: branch edges A→B,
A→C, B→D, C→D (A = 0, B = 1, C = 2, D = 3), with a freshly finished
triggering commit (id 0) on A. -/
def diamondState : PfsState :=
  { branches := [mkBranch 0 [] (some 0), mkBranch 1 [0] none,
      mkBranch 2 [0] none, mkBranch 3 [1, 2] none],
    commits := [
      { cid := 0, branch := 0, parent := none, directProvenance := [],
        commitSetId := 0, finished := true, finishError := false, size := 4 }],
    childIndex := [],
    nextCommitId := 1 }

/-- The linear provenance chain A→B→C→D of `TestBlockJobset`
(A = 0, B = 1, C = 2, D = 3), with an open commit (id 0) on A. -/
def chainState : PfsState :=
  { branches := [mkBranch 0 [] (some 0), mkBranch 1 [0] none,
      mkBranch 2 [1] none, mkBranch 3 [2] none],
    commits := [
      { cid := 0, branch := 0, parent := none, directProvenance := [],
        commitSetId := 0, finished := false, finishError := false, size := 4 }],
    childIndex := [],
    nextCommitId := 1 }

/-- The two-stage chain R/master → P1 → P2 of the spec's concrete
scenario (R = 0, P1 = 1, P2 = 2), with an open commit c1 (id 5, commit
set 5) on R/master. -/
def twoStageState : PfsState :=
  { branches := [mkBranch 0 [] (some 5), mkBranch 1 [0] none,
      mkBranch 2 [1] none],
    commits := [
      { cid := 5, branch := 0, parent := none, directProvenance := [],
        commitSetId := 5, finished := false, finishError := false, size := 4 }],
    childIndex := [],
    nextCommitId := 6 }

/-- A data repo (0) feeding one pipeline (1), both empty: the starting
point of `TestStopPipeline`. -/
def stopPipelineState : PfsState :=
  { branches := [mkBranch 0 [] none, mkBranch 1 [0] none],
    commits := [],
    childIndex := [],
    nextCommitId := 0 }

/-- The three-stage chain of `TestBlockJobsetFailures`: data repo 0 and
pipelines 1, 2, 3, with an open commit (id 0) on the data repo. -/
def threeStageState : PfsState :=
  { branches := [mkBranch 0 [] (some 0), mkBranch 1 [0] none,
      mkBranch 2 [1] none, mkBranch 3 [2] none],
    commits := [
      { cid := 0, branch := 0, parent := none, directProvenance := [],
        commitSetId := 0, finished := false, finishError := false, size := 4 }],
    childIndex := [],
    nextCommitId := 1 }

/-- The state of `TestRepoSize` after the pipeline has processed commit
c1: data repo branch 0 with base commit 0 (3 bytes) and commit 2 (6 bytes
cumulative, commit set 2), pipeline branch 1 with base commit 1 and
output commit 3 (6 bytes cumulative, commit set 2). -/
def repoSizeState : PfsState :=
  { branches := [mkBranch 0 [] (some 2),
      { bid := 1, directProv := [0], head := some 3,
        stopped := false, pending := false }],
    commits := [
      { cid := 0, branch := 0, parent := none, directProvenance := [],
        commitSetId := 0, finished := true, finishError := false, size := 3 },
      { cid := 1, branch := 1, parent := none, directProvenance := [0],
        commitSetId := 0, finished := true, finishError := false, size := 3 },
      { cid := 2, branch := 0, parent := some 0, directProvenance := [],
        commitSetId := 2, finished := true, finishError := false, size := 6 },
      { cid := 3, branch := 1, parent := some 1, directProvenance := [2],
        commitSetId := 2, finished := true, finishError := false, size := 6 }],
    childIndex := [(0, 2), (1, 3)],
    nextCommitId := 4 }

/-- The provenance entries of commit `c` that come from upstream branch
`b` (used to state diamond collapsing: there must be exactly one per
upstream branch, not one per path). -/
def provFromBranch (s : PfsState) (c : Commit) (b : Nat) : List Nat :=
  c.directProvenance.filter (fun p =>
    match findCommitById s p with
    | some pc => pc.branch == b
    | none => false)

/-- One propagation step either leaves the commits unchanged (missing
branch, stopped branch, reuse) or appends exactly one new commit carrying
the triggering commit set identifier. -/
theorem propagateStep_commits (s : PfsState) (setId d : Nat) :
    (propagateStep s setId d).commits = s.commits ∨
    ∃ c : Commit, c.commitSetId = setId ∧
      (propagateStep s setId d).commits = s.commits ++ [c] := by
  cases h : findBranch s d with
  | none =>
      simp only [propagateStep, h]
      exact Or.inl trivial
  | some br =>
      simp only [propagateStep, h]
      by_cases hstop : br.stopped = true
      · rw [if_pos hstop]
        exact Or.inl rfl
      · rw [if_neg hstop]
        by_cases hre : canReuse s br = true
        · rw [if_pos hre]
          exact Or.inl rfl
        · rw [if_neg hre]
          exact Or.inr
            ⟨{ cid := s.nextCommitId, branch := br.bid, parent := br.head,
               directProvenance := desiredProv s br, commitSetId := setId,
               finished := false, finishError := false, size := 0 },
             rfl, rfl⟩

/-- Every commit present after a propagation run either predates the run
or carries the run's commit set identifier. -/
theorem propagateList_commitSetId (o : List Nat) (s : PfsState)
    (setId : Nat) :
    ∀ c : Commit, c ∈ (propagateList s setId o).commits →
      c ∈ s.commits ∨ c.commitSetId = setId := by
  induction o generalizing s with
  | nil =>
      intro c hc
      exact Or.inl hc
  | cons d rest ih =>
      intro c hc
      have hc2 : c ∈ (propagateList (propagateStep s setId d) setId rest).commits := hc
      rcases ih (propagateStep s setId d) c hc2 with hmem | hset
      · rcases propagateStep_commits s setId d with heq | ⟨c0, hc0, heq⟩
        · rw [heq] at hmem
          exact Or.inl hmem
        · rw [heq] at hmem
          rcases List.mem_append.mp hmem with hl | hr
          · exact Or.inl hl
          · have hcc : c = c0 := List.mem_singleton.mp hr
            exact Or.inr (hcc ▸ hc0)
      · exact Or.inr hset

/-- Claim C1: in the diamond DAG A→B, A→C, B→D, C→D, finishing one new
commit on A produces, for either processing order of B's and C's
advancement, exactly one new commit on branch D, and that commit
references exactly one upstream commit from branch B and exactly one from
branch C — one per upstream branch, not one per path. -/
theorem claim_C1_diamond_collapsing (o : List Nat)
    (h : o = [1, 2, 3] ∨ o = [2, 1, 3]) :
    (commitsOn (propagateList diamondState 0 o) 3).length = 1 ∧
    (commitsOn (propagateList diamondState 0 o) 3).all (fun c =>
      (provFromBranch (propagateList diamondState 0 o) c 1).length == 1 &&
      (provFromBranch (propagateList diamondState 0 o) c 2).length == 1) = true := by
  rcases h with h | h <;> subst h <;> exact ⟨by decide, by decide⟩

/-- Witness for C1 at the concrete order B-before-C. -/
theorem claim_C1_witness :
    (commitsOn (propagateList diamondState 0 [1, 2, 3]) 3).length = 1 ∧
    (commitsOn (propagateList diamondState 0 [1, 2, 3]) 3).all (fun c =>
      (provFromBranch (propagateList diamondState 0 [1, 2, 3]) c 1).length == 1 &&
      (provFromBranch (propagateList diamondState 0 [1, 2, 3]) c 2).length == 1) = true :=
  claim_C1_diamond_collapsing [1, 2, 3] (Or.inl rfl)

/-- Claim C2: in the linear chain A→B→C→D, finishing one commit on A
produces exactly one new commit on each of B, C and D before the
propagation run completes; the run appends them in dependency order —
B's commit (id 1), then C's commit (id 2) depending on B's, then D's
commit (id 3) depending on C's — all in commit set 0. -/
theorem claim_C2_topological_completeness :
    (commitsOn (finishCommit chainState 0 false) 1).length = 1 ∧
    (commitsOn (finishCommit chainState 0 false) 2).length = 1 ∧
    (commitsOn (finishCommit chainState 0 false) 3).length = 1 ∧
    (finishCommit chainState 0 false).commits =
      [{ cid := 0, branch := 0, parent := none, directProvenance := [],
         commitSetId := 0, finished := true, finishError := false, size := 4 },
       { cid := 1, branch := 1, parent := none, directProvenance := [0],
         commitSetId := 0, finished := false, finishError := false, size := 0 },
       { cid := 2, branch := 2, parent := none, directProvenance := [1],
         commitSetId := 0, finished := false, finishError := false, size := 0 },
       { cid := 3, branch := 3, parent := none, directProvenance := [2],
         commitSetId := 0, finished := false, finishError := false, size := 0 }] := by
  refine ⟨by decide, by decide, by decide, by decide⟩

/-- Claim C3: every commit created by a propagation run carries the run's
commit set identifier (the id of the triggering commit); in the two-stage
chain R/master → P1 → P2, finishing commit c1 (id 5) results in exactly 2
additional commits, one on P1's branch and one on P2's, with all three
commits sharing commit set id 5. -/
theorem claim_C3_commit_set_identity :
    (∀ (s : PfsState) (setId : Nat) (o : List Nat) (c : Commit),
      c ∈ (propagateList s setId o).commits →
      c ∈ s.commits ∨ c.commitSetId = setId) ∧
    ((finishCommit twoStageState 5 false).commits.length = 3 ∧
     (finishCommit twoStageState 5 false).commits.all
       (fun c => c.commitSetId == 5) = true ∧
     (commitsOn (finishCommit twoStageState 5 false) 1).length = 1 ∧
     (commitsOn (finishCommit twoStageState 5 false) 2).length = 1) := by
  refine ⟨fun s setId o => propagateList_commitSetId o s setId,
    by decide, by decide, by decide, by decide⟩

/-- Witness for C3: P1's new commit in the two-stage run is either an old
commit or carries the triggering commit set id 5 (it is the latter: it is
not among the pre-run commits). -/
theorem claim_C3_witness :
    ({ cid := 6, branch := 1, parent := none, directProvenance := [5],
       commitSetId := 5, finished := false, finishError := false,
       size := 0 } : Commit) ∈ twoStageState.commits ∨
    ({ cid := 6, branch := 1, parent := none, directProvenance := [5],
       commitSetId := 5, finished := false, finishError := false,
       size := 0 } : Commit).commitSetId = 5 :=
  claim_C3_commit_set_identity.1 twoStageState 5 [1, 2]
    { cid := 6, branch := 1, parent := none, directProvenance := [5],
      commitSetId := 5, finished := false, finishError := false, size := 0 }
    (by decide)

theorem find?_map_keeps_key {α : Type} (k : α → Nat) (f : α → α)
    (hf : ∀ x, k (f x) = k x) (l : List α) (b : Nat) (x : α)
    (h : l.find? (fun y => k y == b) = some x) :
    (l.map f).find? (fun y => k y == b) = some (f x) := by
  induction l with
  | nil => cases h
  | cons a rest ih =>
      by_cases ha : (k a == b) = true
      · have hx : a = x := by
          rw [List.find?_cons_of_pos (p := fun y => k y == b) _ ha] at h
          exact Option.some.inj h
        subst hx
        rw [List.map_cons]
        exact List.find?_cons_of_pos (p := fun y => k y == b) _
          (by show (k (f a) == b) = true; rw [hf]; exact ha)
      · rw [List.find?_cons_of_neg (p := fun y => k y == b) _ ha] at h
        rw [List.map_cons]
        rw [List.find?_cons_of_neg (p := fun y => k y == b) _
          (by show ¬(k (f a) == b) = true; rw [hf]; exact ha)]
        exact ih h

theorem find?_filter_other_cid (l : List Commit) (cid q : Nat)
    (hne : q ≠ cid) (pc : Commit)
    (h : l.find? (fun x => x.cid == q) = some pc) :
    (l.filter (fun x => !(x.cid == cid))).find?
      (fun x => x.cid == q) = some pc := by
  induction l with
  | nil => cases h
  | cons a rest ih =>
      by_cases ha : (a.cid == q) = true
      · have hpc : a = pc := by
          rw [List.find?_cons_of_pos (p := fun x : Commit => x.cid == q) _ ha] at h
          exact Option.some.inj h
        subst hpc
        have hkeep : (!(a.cid == cid)) = true := by
          simp only [beq_iff_eq] at ha
          simp [ha, hne]
        rw [List.filter_cons_of_pos (p := fun x : Commit => !(x.cid == cid)) hkeep]
        exact List.find?_cons_of_pos (p := fun x : Commit => x.cid == q) _ ha
      · rw [List.find?_cons_of_neg (p := fun x : Commit => x.cid == q) _ ha] at h
        by_cases hkeep : (!(a.cid == cid)) = true
        · rw [List.filter_cons_of_pos (p := fun x : Commit => !(x.cid == cid)) hkeep]
          rw [List.find?_cons_of_neg (p := fun x : Commit => x.cid == q) _ ha]
          exact ih h
        · rw [List.filter_cons_of_neg (p := fun x : Commit => !(x.cid == cid)) hkeep]
          exact ih h

theorem repairBranch_bid (c : Commit) (cid : Nat) (x : Branch) :
    (repairBranch c cid x).bid = x.bid := by
  by_cases hx : (x.head == some cid) = true <;> simp [repairBranch, hx]

theorem repairCommit_cid (c : Commit) (cid : Nat) (x : Commit) :
    (repairCommit c cid x).cid = x.cid := by
  by_cases hx : (x.parent == some cid) = true <;> simp [repairCommit, hx]

theorem repairCommit_size (c : Commit) (cid : Nat) (x : Commit) :
    (repairCommit c cid x).size = x.size := by
  by_cases hx : (x.parent == some cid) = true <;> simp [repairCommit, hx]

/-- Removing a commit that is a branch's HEAD makes the repo's reported
aggregate size the size recorded at the removed commit's parent (or 0
when it had no parent): the accounting reflects the removal. -/
theorem removeCommit_repoSize (s : PfsState) (b cid : Nat) (br : Branch)
    (c : Commit) (hfb : findBranch s b = some br)
    (hhead : br.head = some cid) (hc : findCommitById s cid = some c) :
    (c.parent = none → repoSize (removeCommit s cid) b = 0) ∧
    (∀ (p : Nat) (pc : Commit), c.parent = some p → p ≠ cid →
      findCommitById s p = some pc →
      repoSize (removeCommit s cid) b = pc.size) := by
  have hfb3 : findBranch (removeCommit s cid) b =
      some { br with head := c.parent } := by
    have hmap : findBranch (removeCommit s cid) b =
        some (repairBranch c cid br) := by
      simp only [removeCommit, hc]
      exact find?_map_keeps_key Branch.bid (repairBranch c cid)
        (repairBranch_bid c cid) s.branches b br hfb
    rw [hmap]
    unfold repairBranch
    rw [if_pos (by rw [hhead]; exact beq_self_eq_true _)]
  have hg : ∀ (p : Nat) (pc : Commit), p ≠ cid →
      findCommitById s p = some pc →
      findCommitById (removeCommit s cid) p = some (repairCommit c cid pc) := by
    intro p pc hpne hp
    simp only [removeCommit, hc]
    exact find?_map_keeps_key Commit.cid (repairCommit c cid)
      (repairCommit_cid c cid) _ p pc
      (find?_filter_other_cid s.commits cid p hpne pc hp)
  constructor
  · intro hnone
    simp [repoSize, hfb3, hnone]
  · intro p pc hparent hpne hp
    simp [repoSize, hfb3, hparent, hg p pc hpne hp, repairCommit_size]

/-- Claim C5: a repo's aggregate size accounting reflects the removal of
squashed commits: removing a commit that is a branch's HEAD (the per-
commit step of `Squash`) makes the repo report the cumulative size
recorded at the removed commit's parent (0 when there is none); in the
concrete `TestRepoSize` scenario, squashing commit set 2 reduces both the
data repo's and the pipeline repo's reported size from 6 bytes to 3
bytes, the removed data's size. -/
theorem claim_C5_squash_accounting :
    (∀ (s : PfsState) (b cid : Nat) (br : Branch) (c : Commit),
      findBranch s b = some br → br.head = some cid →
      findCommitById s cid = some c →
      (c.parent = none → repoSize (removeCommit s cid) b = 0) ∧
      (∀ (p : Nat) (pc : Commit), c.parent = some p → p ≠ cid →
        findCommitById s p = some pc →
        repoSize (removeCommit s cid) b = pc.size)) ∧
    (repoSize repoSizeState 0 = 6 ∧
     repoSize repoSizeState 1 = 6 ∧
     repoSize (squashCommitSet repoSizeState 2) 0 = 3 ∧
     repoSize (squashCommitSet repoSizeState 2) 1 = 3) := by
  exact ⟨removeCommit_repoSize, by decide, by decide, by decide, by decide⟩

/-- Witness for C5 at a concrete input: removing the pipeline repo's HEAD
commit (id 3, 6 bytes cumulative) makes the pipeline repo report its
parent's 3 bytes. -/
theorem claim_C5_witness :
    repoSize (removeCommit repoSizeState 3) 1 = 3 :=
  (claim_C5_squash_accounting.1 repoSizeState 1 3
      { bid := 1, directProv := [0], head := some 3,
        stopped := false, pending := false }
      { cid := 3, branch := 1, parent := some 1, directProvenance := [2],
        commitSetId := 2, finished := true, finishError := false, size := 6 }
      (by decide) rfl (by decide)).2 1
    { cid := 1, branch := 1, parent := none, directProvenance := [0],
      commitSetId := 0, finished := true, finishError := false, size := 3 }
    rfl (by decide) (by decide)

/-- The `TestStopPipeline` run: the pipeline (branch 1) is stopped, then
two commits (ids 0 and 1) are started and finished on the data repo
(branch 0) while it is stopped. -/
def stoppedUpstreamRun : PfsState :=
  finishCommit
    (startCommit
      (finishCommit (startCommit (stopPipeline stopPipelineState 1) 0 4) 0 false)
      0 2)
    1 false

/-- Claim C6: commits finishing upstream while the pipeline (branch 1) is
stopped create no commit on its output branch and leave it marked as
having pending upstream changes; starting the pipeline again produces
exactly one catch-up commit, whose direct provenance is the upstream
branch's current HEAD (commit 1, the latest of the missed advances). -/
theorem claim_C6_stopped_pipeline_catchup :
    (commitsOn stoppedUpstreamRun 1).length = 0 ∧
    (findBranch stoppedUpstreamRun 1).map (fun br => br.pending) = some true ∧
    (commitsOn (startPipeline stoppedUpstreamRun 1) 1).length = 1 ∧
    (commitsOn (startPipeline stoppedUpstreamRun 1) 1).all
      (fun c => c.directProvenance == [1]) = true := by
  refine ⟨by decide, by decide, by decide, by decide⟩

/-- The `TestBlockJobsetFailures` run on the three-stage chain: the data
commit (id 0) finishes, creating commits 1, 2, 3 on the pipelines; stage
1's commit finishes successfully; stage 2's commit finishes with an
error. -/
def failedStage2Run : PfsState :=
  finishCommit (finishCommit (finishCommit threeStageState 0 false) 1 false) 2 true

/-- Claim C7: a pipeline processing failure at stage 2 is recorded as the
finish-reason of stage 2's output commit (finished with error), not as an
engine error; propagation proceeded normally — stage 3 still has exactly
one commit for the same commit set (0), whose direct provenance is the
failed commit (id 2), and no commit was removed by the failure. -/
theorem claim_C7_failure_is_data :
    (findCommitById failedStage2Run 2).map
      (fun c => (c.finished, c.finishError)) = some (true, true) ∧
    (commitsOn failedStage2Run 3).length = 1 ∧
    (commitsOn failedStage2Run 3).all
      (fun c => c.directProvenance == [2] && c.commitSetId == 0) = true ∧
    failedStage2Run.commits.length = 4 := by
  refine ⟨by decide, by decide, by decide, by decide⟩

/-- Claim C8: a `CreateBranch` call whose declared provenance edges would
make the branch-provenance graph cyclic — the branch among its own
declared provenance, or some declared provenance branch reaching the
branch through existing edges — fails synchronously with a
cyclic-provenance error; branch creation or update never changes any
commit-level state, and in particular a rejected call changes nothing; a
pipeline declaring its own output branch as an input (the
`TestSelfReferentialPipeline` scenario) is rejected. -/
theorem claim_C8_cycle_rejection :
    (∀ (s : PfsState) (bid : Nat) (provs : List Nat),
      (bid ∈ provs ∨
        ∃ p ∈ provs, reachesUp s s.branches.length p bid = true) →
      createBranch s bid provs = Except.error PfsErr.cyclicProvenance) ∧
    (∀ (s : PfsState) (bid : Nat) (provs : List Nat) (s' : PfsState),
      createBranch s bid provs = Except.ok s' → s'.commits = s.commits) ∧
    createBranch stopPipelineState 5 [5] =
      Except.error PfsErr.cyclicProvenance ∧
    createBranch stopPipelineState 0 [1] =
      Except.error PfsErr.cyclicProvenance := by
  refine ⟨?_, ?_, rfl, rfl⟩
  · intro s bid provs h
    unfold createBranch
    rw [if_pos ?_]
    simp only [Bool.or_eq_true, List.any_eq_true]
    rcases h with h | ⟨p, hp, hr⟩
    · left
      simpa using h
    · right
      exact ⟨p, hp, hr⟩
  · intro s bid provs s' h
    unfold createBranch at h
    by_cases h1 : (provs.contains bid ||
        provs.any (fun p => reachesUp s s.branches.length p bid)) = true
    · rw [if_pos h1] at h
      cases h
    · rw [if_neg h1] at h
      by_cases h2 : (!(provs.all (fun p => existsBranch s p))) = true
      · rw [if_pos h2] at h
        cases h
      · rw [if_neg h2] at h
        cases h
        cases hf : findBranch s bid with
        | some br => simp [hf, updateBranch]
        | none => simp [hf]

/-- Witness for C8 at a concrete input: a pipeline output branch declared
as its own input is rejected with a cyclic-provenance error. -/
theorem claim_C8_witness :
    createBranch stopPipelineState 2 [2] =
      Except.error PfsErr.cyclicProvenance :=
  claim_C8_cycle_rejection.1 stopPipelineState 2 [2] (Or.inl (by decide))

/-- Does a commit with the given id occur in the commit list? -/
def existsCid (l : List Commit) (q : Nat) : Bool :=
  l.any (fun x => x.cid == q)

/-- An optional commit reference is intact: it is none, or an existing
commit. -/
def optCidOk (l : List Commit) : Option Nat → Bool
  | none => true
  | some q => existsCid l q

/-- Every stored reference of one commit is intact relative to a commit
list: its parent and each of its directProvenance entries. -/
def refsOk (l : List Commit) (c : Commit) : Bool :=
  optCidOk l c.parent &&
    c.directProvenance.all (fun q => existsCid l q)

/-- A children back-reference entry is intact: the owning parent commit
and the referenced child commit both exist. -/
def childEntryOk (l : List Commit) (e : Nat × Nat) : Bool :=
  existsCid l e.fst && existsCid l e.snd

/-- No stored reference of the commit store dangles: every commit's
parent and directProvenance entries, every children back-reference, and
every branch HEAD refer to commits that exist (or are explicitly none). -/
def noDanglingPfs (s : PfsState) : Bool :=
  s.commits.all (refsOk s.commits) &&
    s.childIndex.all (childEntryOk s.commits) &&
    s.branches.all (fun br => optCidOk s.commits br.head)

/-- A commit's parent is a strictly older commit. -/
def parentOlder (c : Commit) : Bool :=
  match c.parent with
  | some p => decide (p < c.cid)
  | none => true

/-- Well-formedness of a commit store state: no stored reference dangles,
every commit id is below the fresh-id counter, and every parent pointer
goes to a strictly older commit. -/
def wellFormed (s : PfsState) : Bool :=
  noDanglingPfs s &&
    s.commits.all (fun c => decide (c.cid < s.nextCommitId)) &&
    s.commits.all parentOlder

/-- An operation of the commit store's external interface (spec section
6); used to characterise the reachable states. -/
inductive PfsOp where
  | branchOp (bid : Nat) (provs : List Nat)
  | startOp (b delta : Nat)
  | finishOp (cid : Nat) (err : Bool)
  | stopOp (b : Nat)
  | resumeOp (b : Nat)
  | squashOp (setId : Nat)

/-- Apply one operation; a rejected branch creation changes nothing. -/
def applyPfsOp (s : PfsState) : PfsOp → PfsState
  | PfsOp.branchOp bid provs =>
      match createBranch s bid provs with
      | Except.ok s2 => s2
      | Except.error _ => s
  | PfsOp.startOp b delta => startCommit s b delta
  | PfsOp.finishOp cid err => finishCommit s cid err
  | PfsOp.stopOp b => stopPipeline s b
  | PfsOp.resumeOp b => startPipeline s b
  | PfsOp.squashOp setId => squashCommitSet s setId

/-- The empty commit store. -/
def emptyPfs : PfsState :=
  { branches := [], commits := [], childIndex := [], nextCommitId := 0 }

/-- Run a list of operations from the empty commit store. -/
def runPfsOps (ops : List PfsOp) : PfsState :=
  ops.foldl applyPfsOp emptyPfs

theorem existsCid_iff (l : List Commit) (q : Nat) :
    existsCid l q = true ↔ ∃ x ∈ l, x.cid = q := by
  simp [existsCid, List.any_eq_true]

theorem existsCid_append_left (l : List Commit) (c : Commit) (q : Nat)
    (h : existsCid l q = true) : existsCid (l ++ [c]) q = true := by
  rw [existsCid_iff] at h ⊢
  obtain ⟨x, hx, hq⟩ := h
  exact ⟨x, List.mem_append_left _ hx, hq⟩

theorem existsCid_append_self (l : List Commit) (c : Commit) :
    existsCid (l ++ [c]) c.cid = true := by
  rw [existsCid_iff]
  exact ⟨c, List.mem_append_right _ (by simp), rfl⟩

theorem existsCid_map_of (f : Commit → Commit)
    (hf : ∀ x, (f x).cid = x.cid) (l : List Commit) (q : Nat)
    (h : existsCid l q = true) : existsCid (l.map f) q = true := by
  rw [existsCid_iff] at h ⊢
  obtain ⟨x, hx, hq⟩ := h
  exact ⟨f x, List.mem_map_of_mem f hx, by rw [hf]; exact hq⟩

theorem existsCid_remove_of (c : Commit) (cid q : Nat) (l : List Commit)
    (hq : q ≠ cid) (h : existsCid l q = true) :
    existsCid ((l.filter (fun x => !(x.cid == cid))).map
      (repairCommit c cid)) q = true := by
  rw [existsCid_iff] at h ⊢
  obtain ⟨x, hx, hxq⟩ := h
  refine ⟨repairCommit c cid x, ?_, by rw [repairCommit_cid]; exact hxq⟩
  apply List.mem_map_of_mem
  rw [List.mem_filter]
  exact ⟨hx, by simp [hxq, hq]⟩

theorem optCidOk_append (l : List Commit) (c : Commit) (o : Option Nat)
    (h : optCidOk l o = true) : optCidOk (l ++ [c]) o = true := by
  cases o with
  | none => rfl
  | some q => exact existsCid_append_left l c q h

theorem optCidOk_map_of (f : Commit → Commit)
    (hf : ∀ x, (f x).cid = x.cid) (l : List Commit) (o : Option Nat)
    (h : optCidOk l o = true) : optCidOk (l.map f) o = true := by
  cases o with
  | none => rfl
  | some q => exact existsCid_map_of f hf l q h

theorem refsOk_iff (l : List Commit) (c : Commit) :
    refsOk l c = true ↔
      (optCidOk l c.parent = true ∧
       ∀ q ∈ c.directProvenance, existsCid l q = true) := by
  simp [refsOk, List.all_eq_true]

theorem refsOk_append (l : List Commit) (c : Commit) (x : Commit)
    (h : refsOk l x = true) : refsOk (l ++ [c]) x = true := by
  rw [refsOk_iff] at h ⊢
  exact ⟨optCidOk_append l c x.parent h.1,
    fun q hq => existsCid_append_left l c q (h.2 q hq)⟩

theorem childEntryOk_iff (l : List Commit) (e : Nat × Nat) :
    childEntryOk l e = true ↔
      (existsCid l e.fst = true ∧ existsCid l e.snd = true) := by
  simp [childEntryOk]

theorem wellFormed_iff (s : PfsState) :
    wellFormed s = true ↔
      ((∀ c ∈ s.commits, refsOk s.commits c = true) ∧
       (∀ e ∈ s.childIndex, childEntryOk s.commits e = true) ∧
       (∀ br ∈ s.branches, optCidOk s.commits br.head = true) ∧
       (∀ c ∈ s.commits, c.cid < s.nextCommitId) ∧
       (∀ c ∈ s.commits, parentOlder c = true)) := by
  simp [wellFormed, noDanglingPfs, List.all_eq_true, and_assoc]

theorem noDangling_of_wellFormed (s : PfsState)
    (h : wellFormed s = true) : noDanglingPfs s = true := by
  unfold wellFormed at h
  simp only [Bool.and_eq_true] at h
  exact h.1.1

theorem findBranch_mem (s : PfsState) (b : Nat) (br : Branch)
    (h : findBranch s b = some br) : br ∈ s.branches := by
  unfold findBranch at h
  exact List.mem_of_find?_eq_some h

theorem findCommitById_mem (s : PfsState) (q : Nat) (c : Commit)
    (h : findCommitById s q = some c) : c ∈ s.commits ∧ c.cid = q := by
  unfold findCommitById at h
  refine ⟨List.mem_of_find?_eq_some h, ?_⟩
  have := List.find?_some h
  simpa using this

theorem markFinished_cid (cid : Nat) (err : Bool) (x : Commit) :
    (markFinished cid err x).cid = x.cid := by
  by_cases hx : (x.cid == cid) = true <;> simp [markFinished, hx]

theorem markFinished_parent (cid : Nat) (err : Bool) (x : Commit) :
    (markFinished cid err x).parent = x.parent := by
  by_cases hx : (x.cid == cid) = true <;> simp [markFinished, hx]

theorem markFinished_prov (cid : Nat) (err : Bool) (x : Commit) :
    (markFinished cid err x).directProvenance = x.directProvenance := by
  by_cases hx : (x.cid == cid) = true <;> simp [markFinished, hx]

theorem markFinished_parentOlder (cid : Nat) (err : Bool) (x : Commit) :
    parentOlder (markFinished cid err x) = parentOlder x := by
  unfold parentOlder
  rw [markFinished_parent, markFinished_cid]

theorem repairBranch_head_pos (c : Commit) (cid : Nat) (br : Branch)
    (h : (br.head == some cid) = true) :
    (repairBranch c cid br).head = c.parent := by
  simp [repairBranch, h]

theorem repairBranch_head_neg (c : Commit) (cid : Nat) (br : Branch)
    (h : ¬(br.head == some cid) = true) :
    (repairBranch c cid br).head = br.head := by
  simp [repairBranch, h]

theorem repairCommit_parent_pos (c : Commit) (cid : Nat) (x : Commit)
    (h : (x.parent == some cid) = true) :
    (repairCommit c cid x).parent = c.parent := by
  simp [repairCommit, h]

theorem repairCommit_parent_neg (c : Commit) (cid : Nat) (x : Commit)
    (h : ¬(x.parent == some cid) = true) :
    (repairCommit c cid x).parent = x.parent := by
  simp [repairCommit, h]

theorem repairCommit_prov (c : Commit) (cid : Nat) (x : Commit) :
    (repairCommit c cid x).directProvenance =
      x.directProvenance.filter (fun q => !(q == cid)) := by
  by_cases h : (x.parent == some cid) = true <;> simp [repairCommit, h]

theorem wf_mapBranches (s : PfsState) (g : Branch → Branch)
    (hg : ∀ x, (g x).head = x.head) (hw : wellFormed s = true) :
    wellFormed { s with branches := s.branches.map g } = true := by
  rw [wellFormed_iff] at hw ⊢
  obtain ⟨h1, h2, h3, h4, h5⟩ := hw
  refine ⟨h1, h2, ?_, h4, h5⟩
  intro br hbr
  have hbr2 : br ∈ s.branches.map g := hbr
  rw [List.mem_map] at hbr2
  obtain ⟨x, hx, rfl⟩ := hbr2
  show optCidOk s.commits (g x).head = true
  rw [hg]
  exact h3 x hx

theorem wf_updateFlags (s : PfsState) (b : Nat) (f : Branch → Branch)
    (hf : ∀ x, (f x).head = x.head) (hw : wellFormed s = true) :
    wellFormed (updateBranch s b f) = true := by
  unfold updateBranch
  refine wf_mapBranches s _ ?_ hw
  intro x
  by_cases hx : (x.bid == b) = true
  · rw [if_pos hx]
    exact hf x
  · rw [if_neg hx]

theorem desiredProv_head (s : PfsState) (br : Branch) (q : Nat)
    (hq : q ∈ desiredProv s br) : ∃ br2 ∈ s.branches, br2.head = some q := by
  unfold desiredProv at hq
  rw [List.mem_filterMap] at hq
  obtain ⟨ub, _, hub⟩ := hq
  cases hfb : findBranch s ub with
  | none =>
      rw [hfb] at hub
      cases hub
  | some br2 =>
      rw [hfb] at hub
      simp only [Option.some_bind] at hub
      exact ⟨br2, findBranch_mem s ub br2 hfb, hub⟩

theorem desiredProv_exists (s : PfsState) (br : Branch)
    (hw : wellFormed s = true) (q : Nat) (hq : q ∈ desiredProv s br) :
    existsCid s.commits q = true := by
  obtain ⟨br2, hbr2, hh⟩ := desiredProv_head s br q hq
  have h3 := ((wellFormed_iff s).mp hw).2.2.1
  have hok := h3 br2 hbr2
  rw [hh] at hok
  exact hok

theorem wf_addCommit (s : PfsState) (B : Nat) (br : Branch) (cNew : Commit)
    (hbrmem : br ∈ s.branches)
    (hcid : cNew.cid = s.nextCommitId)
    (hparent : cNew.parent = br.head)
    (hprov : ∀ q ∈ cNew.directProvenance, existsCid s.commits q = true)
    (hw : wellFormed s = true) :
    wellFormed
      { branches := s.branches.map (fun x =>
          if x.bid == B then { x with head := some cNew.cid } else x),
        commits := s.commits ++ [cNew],
        childIndex := addChildEntry s.childIndex br.head s.nextCommitId,
        nextCommitId := s.nextCommitId + 1 } = true := by
  rw [wellFormed_iff] at hw ⊢
  obtain ⟨h1, h2, h3, h4, h5⟩ := hw
  have hheadok : optCidOk s.commits br.head = true := h3 br hbrmem
  refine ⟨?_, ?_, ?_, ?_, ?_⟩
  · intro x hx
    have hx2 : x ∈ s.commits ++ [cNew] := hx
    rw [List.mem_append] at hx2
    rcases hx2 with hx2 | hx2
    · exact refsOk_append s.commits cNew x (h1 x hx2)
    · rw [List.mem_singleton] at hx2
      subst hx2
      rw [refsOk_iff]
      constructor
      · rw [hparent]
        exact optCidOk_append s.commits x br.head hheadok
      · intro q hq
        exact existsCid_append_left s.commits x q (hprov q hq)
  · intro e he
    have he2 : e ∈ addChildEntry s.childIndex br.head s.nextCommitId := he
    unfold addChildEntry at he2
    cases hh : br.head with
    | none =>
        rw [hh] at he2
        rw [childEntryOk_iff]
        have hold := (childEntryOk_iff s.commits e).mp (h2 e he2)
        exact ⟨existsCid_append_left _ _ _ hold.1,
          existsCid_append_left _ _ _ hold.2⟩
    | some hd =>
        rw [hh] at he2
        rw [List.mem_append] at he2
        rcases he2 with he2 | he2
        · rw [childEntryOk_iff]
          have hold := (childEntryOk_iff s.commits e).mp (h2 e he2)
          exact ⟨existsCid_append_left _ _ _ hold.1,
            existsCid_append_left _ _ _ hold.2⟩
        · rw [List.mem_singleton] at he2
          subst he2
          rw [childEntryOk_iff]
          constructor
          · have hok : existsCid s.commits hd = true := by
              rw [hh] at hheadok
              exact hheadok
            exact existsCid_append_left _ _ _ hok
          · show existsCid (s.commits ++ [cNew]) s.nextCommitId = true
            rw [← hcid]
            exact existsCid_append_self _ _
  · intro br2 hbr2
    have hbr3 : br2 ∈ s.branches.map (fun x =>
        if x.bid == B then { x with head := some cNew.cid } else x) := hbr2
    rw [List.mem_map] at hbr3
    obtain ⟨x, hx, rfl⟩ := hbr3
    by_cases hxb : (x.bid == B) = true
    · show optCidOk (s.commits ++ [cNew])
        (if (x.bid == B) = true then { x with head := some cNew.cid } else x).head = true
      rw [if_pos hxb]
      show existsCid (s.commits ++ [cNew]) cNew.cid = true
      exact existsCid_append_self _ _
    · show optCidOk (s.commits ++ [cNew])
        (if (x.bid == B) = true then { x with head := some cNew.cid } else x).head = true
      rw [if_neg hxb]
      exact optCidOk_append _ _ _ (h3 x hx)
  · intro x hx
    have hx2 : x ∈ s.commits ++ [cNew] := hx
    rw [List.mem_append] at hx2
    show x.cid < s.nextCommitId + 1
    rcases hx2 with hx2 | hx2
    · exact Nat.lt_succ_of_lt (h4 x hx2)
    · rw [List.mem_singleton] at hx2
      subst hx2
      rw [hcid]
      exact Nat.lt_succ_self _
  · intro x hx
    have hx2 : x ∈ s.commits ++ [cNew] := hx
    rw [List.mem_append] at hx2
    rcases hx2 with hx2 | hx2
    · exact h5 x hx2
    · rw [List.mem_singleton] at hx2
      subst hx2
      unfold parentOlder
      rw [hparent]
      cases hh : br.head with
      | none => rfl
      | some hd =>
          have hex : existsCid s.commits hd = true := by
            rw [hh] at hheadok
            exact hheadok
          rw [existsCid_iff] at hex
          obtain ⟨y, hy, hyc⟩ := hex
          have hlt : hd < s.nextCommitId := by
            rw [← hyc]
            exact h4 y hy
          simpa [hcid] using hlt

theorem wf_startCommit (s : PfsState) (b delta : Nat)
    (hw : wellFormed s = true) : wellFormed (startCommit s b delta) = true := by
  cases hfb : findBranch s b with
  | none => simpa [startCommit, hfb] using hw
  | some br =>
      simp only [startCommit, hfb]
      refine wf_addCommit s b br _ (findBranch_mem s b br hfb) rfl rfl ?_ hw
      intro q hq
      cases hq

theorem wf_createCommitOn (s : PfsState) (setId : Nat) (br : Branch)
    (hbrmem : br ∈ s.branches) (hw : wellFormed s = true) :
    wellFormed (createCommitOn s setId br) = true := by
  simp only [createCommitOn]
  exact wf_addCommit s br.bid br _ hbrmem rfl rfl
    (fun q hq => desiredProv_exists s br hw q hq) hw

theorem wf_propagateStep (s : PfsState) (setId d : Nat)
    (hw : wellFormed s = true) : wellFormed (propagateStep s setId d) = true := by
  cases hfb : findBranch s d with
  | none => simpa [propagateStep, hfb] using hw
  | some br =>
      simp only [propagateStep, hfb]
      by_cases hstop : br.stopped = true
      · rw [if_pos hstop]
        exact wf_updateFlags s d _ (fun x => rfl) hw
      · rw [if_neg hstop]
        by_cases hre : canReuse s br = true
        · rw [if_pos hre]
          exact hw
        · rw [if_neg hre]
          exact wf_createCommitOn s setId br (findBranch_mem s d br hfb) hw

theorem wf_propagateList (o : List Nat) (s : PfsState) (setId : Nat)
    (hw : wellFormed s = true) :
    wellFormed (propagateList s setId o) = true := by
  induction o generalizing s with
  | nil => exact hw
  | cons d rest ih =>
      exact ih (propagateStep s setId d) (wf_propagateStep s setId d hw)

theorem wf_markAll (s : PfsState) (cid : Nat) (err : Bool)
    (hw : wellFormed s = true) :
    wellFormed { s with commits := s.commits.map (markFinished cid err) } = true := by
  rw [wellFormed_iff] at hw ⊢
  obtain ⟨h1, h2, h3, h4, h5⟩ := hw
  refine ⟨?_, ?_, ?_, ?_, ?_⟩
  · intro x hx
    have hx2 : x ∈ s.commits.map (markFinished cid err) := hx
    rw [List.mem_map] at hx2
    obtain ⟨y, hy, rfl⟩ := hx2
    rw [refsOk_iff]
    have hyr := (refsOk_iff _ _).mp (h1 y hy)
    constructor
    · rw [markFinished_parent]
      exact optCidOk_map_of _ (markFinished_cid cid err) _ _ hyr.1
    · intro q hq
      rw [markFinished_prov] at hq
      exact existsCid_map_of _ (markFinished_cid cid err) _ q (hyr.2 q hq)
  · intro e he
    rw [childEntryOk_iff]
    have hold := (childEntryOk_iff s.commits e).mp (h2 e he)
    exact ⟨existsCid_map_of _ (markFinished_cid cid err) _ _ hold.1,
      existsCid_map_of _ (markFinished_cid cid err) _ _ hold.2⟩
  · intro br hbr
    exact optCidOk_map_of _ (markFinished_cid cid err) _ _ (h3 br hbr)
  · intro x hx
    have hx2 : x ∈ s.commits.map (markFinished cid err) := hx
    rw [List.mem_map] at hx2
    obtain ⟨y, hy, rfl⟩ := hx2
    show (markFinished cid err y).cid < s.nextCommitId
    rw [markFinished_cid]
    exact h4 y hy
  · intro x hx
    have hx2 : x ∈ s.commits.map (markFinished cid err) := hx
    rw [List.mem_map] at hx2
    obtain ⟨y, hy, rfl⟩ := hx2
    rw [markFinished_parentOlder]
    exact h5 y hy

theorem wf_finishCommit (s : PfsState) (cid : Nat) (err : Bool)
    (hw : wellFormed s = true) : wellFormed (finishCommit s cid err) = true := by
  cases hc : findCommitById s cid with
  | none => simpa [finishCommit, hc] using hw
  | some c =>
      simp only [finishCommit, hc]
      by_cases hf : c.finished = true
      · rw [if_pos hf]
        exact hw
      · rw [if_neg hf]
        exact wf_propagateList _ _ _ (wf_markAll s cid err hw)

theorem wf_startPipeline (s : PfsState) (b : Nat)
    (hw : wellFormed s = true) : wellFormed (startPipeline s b) = true := by
  cases hfb : findBranch s b with
  | none => simpa [startPipeline, hfb] using hw
  | some br =>
      simp only [startPipeline, hfb]
      have hs1 : wellFormed (updateBranch s b
          (fun x => { x with stopped := false, pending := false })) = true :=
        wf_updateFlags s b _ (fun x => rfl) hw
      by_cases hp : br.pending = true
      · rw [if_pos hp]
        exact wf_propagateList _ _ _ hs1
      · rw [if_neg hp]
        exact hs1

theorem wf_createBranch (s : PfsState) (bid : Nat) (provs : List Nat)
    (s2 : PfsState) (h : createBranch s bid provs = Except.ok s2)
    (hw : wellFormed s = true) : wellFormed s2 = true := by
  unfold createBranch at h
  by_cases h1 : (provs.contains bid ||
      provs.any (fun p => reachesUp s s.branches.length p bid)) = true
  · rw [if_pos h1] at h
    cases h
  · rw [if_neg h1] at h
    by_cases h2 : (!(provs.all (fun p => existsBranch s p))) = true
    · rw [if_pos h2] at h
      cases h
    · rw [if_neg h2] at h
      cases h
      cases hf : findBranch s bid with
      | some br =>
          exact wf_updateFlags s bid _ (fun x => rfl) hw
      | none =>
          rw [wellFormed_iff] at hw ⊢
          obtain ⟨g1, g2, g3, g4, g5⟩ := hw
          refine ⟨g1, g2, ?_, g4, g5⟩
          intro br hbr
          have hbr2 : br ∈ s.branches ++
              [{ bid := bid, directProv := provs, head := none,
                 stopped := false, pending := false }] := hbr
          rw [List.mem_append] at hbr2
          rcases hbr2 with hbr2 | hbr2
          · exact g3 br hbr2
          · rw [List.mem_singleton] at hbr2
            subst hbr2
            rfl

theorem wf_removeCommit (s : PfsState) (cid : Nat)
    (hw : wellFormed s = true) : wellFormed (removeCommit s cid) = true := by
  cases hc : findCommitById s cid with
  | none => simpa [removeCommit, hc] using hw
  | some c =>
      obtain ⟨hcmem, hccid⟩ := findCommitById_mem s cid c hc
      rw [wellFormed_iff] at hw
      obtain ⟨h1, h2, h3, h4, h5⟩ := hw
      have hcrefs := (refsOk_iff _ _).mp (h1 c hcmem)
      have hcp : ∀ p : Nat, c.parent = some p → p < cid := by
        intro p hp
        have hpo := h5 c hcmem
        unfold parentOlder at hpo
        rw [hp] at hpo
        simpa [hccid] using hpo
      have htrans : ∀ q : Nat, q ≠ cid → existsCid s.commits q = true →
          existsCid ((s.commits.filter (fun x => !(x.cid == cid))).map
            (repairCommit c cid)) q = true :=
        fun q hq hqq => existsCid_remove_of c cid q s.commits hq hqq
      have hoptTrans : ∀ o : Option Nat, o ≠ some cid →
          optCidOk s.commits o = true →
          optCidOk ((s.commits.filter (fun x => !(x.cid == cid))).map
            (repairCommit c cid)) o = true := by
        intro o ho hok
        cases o with
        | none => rfl
        | some q =>
            refine htrans q ?_ hok
            intro hqe
            exact ho (by rw [hqe])
      have hcparent : optCidOk ((s.commits.filter
          (fun x => !(x.cid == cid))).map (repairCommit c cid))
          c.parent = true := by
        cases hp : c.parent with
        | none => rfl
        | some p =>
            refine htrans p (Nat.ne_of_lt (hcp p hp)) ?_
            have hex := hcrefs.1
            rw [hp] at hex
            exact hex
      simp only [removeCommit, hc]
      rw [wellFormed_iff]
      refine ⟨?_, ?_, ?_, ?_, ?_⟩
      · intro x2 hx2
        have hx3 : x2 ∈ (s.commits.filter (fun x => !(x.cid == cid))).map
            (repairCommit c cid) := hx2
        rw [List.mem_map] at hx3
        obtain ⟨x, hxf, rfl⟩ := hx3
        rw [List.mem_filter] at hxf
        obtain ⟨hxmem, hxne⟩ := hxf
        have hxr := (refsOk_iff _ _).mp (h1 x hxmem)
        rw [refsOk_iff]
        constructor
        · by_cases hpx : (x.parent == some cid) = true
          · rw [repairCommit_parent_pos c cid x hpx]
            exact hcparent
          · rw [repairCommit_parent_neg c cid x hpx]
            refine hoptTrans x.parent ?_ hxr.1
            intro hxe
            exact hpx (by rw [hxe]; exact beq_self_eq_true _)
        · intro q hq
          rw [repairCommit_prov] at hq
          rw [List.mem_filter] at hq
          obtain ⟨hq1, hq2⟩ := hq
          exact htrans q (by simpa using hq2) (hxr.2 q hq1)
      · intro e2 he2
        have he3 : e2 ∈ repairChildIndex c cid s.childIndex := he2
        unfold repairChildIndex at he3
        rw [List.mem_filterMap] at he3
        obtain ⟨e, hef, hee⟩ := he3
        rw [List.mem_filter] at hef
        obtain ⟨hemem, hesnd⟩ := hef
        have hesnd2 : e.snd ≠ cid := by simpa using hesnd
        have heok := (childEntryOk_iff s.commits e).mp (h2 e hemem)
        by_cases hef2 : (e.fst == cid) = true
        · rw [if_pos hef2] at hee
          cases hp : c.parent with
          | none =>
              rw [hp] at hee
              cases hee
          | some p =>
              rw [hp] at hee
              cases hee
              rw [childEntryOk_iff]
              constructor
              · show existsCid _ p = true
                refine htrans p (Nat.ne_of_lt (hcp p hp)) ?_
                have hex := hcrefs.1
                rw [hp] at hex
                exact hex
              · show existsCid _ e.snd = true
                exact htrans e.snd hesnd2 heok.2
        · rw [if_neg hef2] at hee
          cases hee
          rw [childEntryOk_iff]
          constructor
          · exact htrans e2.fst (by simpa using hef2) heok.1
          · exact htrans e2.snd hesnd2 heok.2
      · intro br2 hbr2
        have hbr3 : br2 ∈ s.branches.map (repairBranch c cid) := hbr2
        rw [List.mem_map] at hbr3
        obtain ⟨br, hbrmem, rfl⟩ := hbr3
        by_cases hh : (br.head == some cid) = true
        · rw [repairBranch_head_pos c cid br hh]
          exact hcparent
        · rw [repairBranch_head_neg c cid br hh]
          refine hoptTrans br.head ?_ (h3 br hbrmem)
          intro hbe
          exact hh (by rw [hbe]; exact beq_self_eq_true _)
      · intro x2 hx2
        have hx3 : x2 ∈ (s.commits.filter (fun x => !(x.cid == cid))).map
            (repairCommit c cid) := hx2
        rw [List.mem_map] at hx3
        obtain ⟨x, hxf, rfl⟩ := hx3
        rw [List.mem_filter] at hxf
        show (repairCommit c cid x).cid < s.nextCommitId
        rw [repairCommit_cid]
        exact h4 x hxf.1
      · intro x2 hx2
        have hx3 : x2 ∈ (s.commits.filter (fun x => !(x.cid == cid))).map
            (repairCommit c cid) := hx2
        rw [List.mem_map] at hx3
        obtain ⟨x, hxf, rfl⟩ := hx3
        rw [List.mem_filter] at hxf
        obtain ⟨hxmem, hxne⟩ := hxf
        by_cases hpx : (x.parent == some cid) = true
        · have hx1 : x.parent = some cid := by simpa using hpx
          have hcidlt : cid < x.cid := by
            have hpo := h5 x hxmem
            unfold parentOlder at hpo
            rw [hx1] at hpo
            simpa using hpo
          unfold parentOlder
          rw [repairCommit_parent_pos c cid x hpx, repairCommit_cid]
          cases hp : c.parent with
          | none => rfl
          | some p =>
              simpa using Nat.lt_trans (hcp p hp) hcidlt
        · unfold parentOlder
          rw [repairCommit_parent_neg c cid x hpx, repairCommit_cid]
          have hpo := h5 x hxmem
          unfold parentOlder at hpo
          exact hpo

theorem wf_squashCommitSet (s : PfsState) (setId : Nat)
    (hw : wellFormed s = true) :
    wellFormed (squashCommitSet s setId) = true := by
  unfold squashCommitSet
  have hgen : ∀ (ids : List Nat) (t : PfsState), wellFormed t = true →
      wellFormed (ids.foldl removeCommit t) = true := by
    intro ids
    induction ids with
    | nil =>
        intro t ht
        exact ht
    | cons i rest ih =>
        intro t ht
        exact ih (removeCommit t i) (wf_removeCommit t i ht)
  exact hgen (commitSetIds s setId) s hw

theorem wf_applyPfsOp (s : PfsState) (op : PfsOp)
    (hw : wellFormed s = true) : wellFormed (applyPfsOp s op) = true := by
  cases op with
  | branchOp bid provs =>
      simp only [applyPfsOp]
      cases h : createBranch s bid provs with
      | ok s2 => exact wf_createBranch s bid provs s2 h hw
      | error e => exact hw
  | startOp b delta => exact wf_startCommit s b delta hw
  | finishOp cid err => exact wf_finishCommit s cid err hw
  | stopOp b => exact wf_updateFlags s b _ (fun x => rfl) hw
  | resumeOp b => exact wf_startPipeline s b hw
  | squashOp setId => exact wf_squashCommitSet s setId hw

theorem wf_runPfsOps (ops : List PfsOp) :
    wellFormed (runPfsOps ops) = true := by
  unfold runPfsOps
  have hgen : ∀ (l : List PfsOp) (t : PfsState), wellFormed t = true →
      wellFormed (l.foldl applyPfsOp t) = true := by
    intro l
    induction l with
    | nil =>
        intro t ht
        exact ht
    | cons op rest ih =>
        intro t ht
        exact ih (applyPfsOp t op) (wf_applyPfsOp t op ht)
  exact hgen ops emptyPfs (by decide)

/-- Claim C4: no dangling references.  At every state of the commit store
reachable through its interface operations, every stored reference — each
commit's parent and each of its directProvenance entries, each children
back-reference, and each branch HEAD — refers to a commit that exists or
is explicitly none; the full well-formedness invariant is preserved by
every single commit-removal step of `Squash`, so no reference dangles
mid-squash either.  At the tracker level, every reachable state has no
dangling pointsTo entry, and an operation that would create a dangling
reference — creating an object whose pointsTo targets do not all exist,
or deleting an object that is still pointed to — fails with
`ErrDanglingRef` and leaves the state unchanged (rejected before any
write). -/
theorem claim_C4_no_dangling_references :
    (∀ ops : List PfsOp, noDanglingPfs (runPfsOps ops) = true) ∧
    (∀ (s : PfsState) (cid : Nat), wellFormed s = true →
      wellFormed (removeCommit s cid) = true) ∧
    (∀ ops : List Track.TrackOp, Track.noDangling (Track.runOps ops) = true) ∧
    (∀ (s : Track.TrackerState) (id : String) (pts : List String),
      Track.getPointsTo s id = none → id ∉ pts →
      (∃ p ∈ pts, Track.existsObj s p = false) →
      Track.createTx s id pts = Except.error Track.TrackErr.danglingRef ∧
      Track.applyOp s (Track.TrackOp.create id pts) = s) ∧
    (∀ (s : Track.TrackerState) (id : String),
      Track.existsObj s id = true →
      (∃ p ∈ s, p.fst ≠ id ∧ id ∈ p.snd) →
      Track.deleteTx s id = Except.error Track.TrackErr.danglingRef ∧
      Track.applyOp s (Track.TrackOp.delete id) = s) :=
  ⟨fun ops => noDangling_of_wellFormed (runPfsOps ops) (wf_runPfsOps ops),
   wf_removeCommit,
   Track.noDangling_runOps,
   Track.createTx_dangling_rejected,
   Track.deleteTx_dangling_rejected⟩

/-- Witness for C4 at concrete inputs: a run that creates a data repo and
a pipeline branch, starts and finishes two commits (the second propagating
and reusing), and squashes the second commit set reaches a state with no
dangling references; one removal step on the `TestRepoSize` state keeps
the store well-formed; and the tracker rejections fire at the dangling
concrete inputs. -/
theorem claim_C4_witness :
    noDanglingPfs (runPfsOps [PfsOp.branchOp 0 [], PfsOp.branchOp 1 [0],
      PfsOp.startOp 0 3, PfsOp.finishOp 0 false, PfsOp.startOp 0 2,
      PfsOp.finishOp 2 false, PfsOp.squashOp 2]) = true ∧
    wellFormed (removeCommit repoSizeState 3) = true ∧
    Track.noDangling (Track.runOps [Track.TrackOp.create "a" [],
      Track.TrackOp.create "b" ["a"], Track.TrackOp.delete "b"]) = true ∧
    Track.createTx [] "x" ["missing"] =
      Except.error Track.TrackErr.danglingRef ∧
    Track.deleteTx [("b", ["a"]), ("a", [])] "a" =
      Except.error Track.TrackErr.danglingRef :=
  ⟨claim_C4_no_dangling_references.1 _,
   claim_C4_no_dangling_references.2.1 repoSizeState 3 (by decide),
   claim_C4_no_dangling_references.2.2.1 _,
   (claim_C4_no_dangling_references.2.2.2.1 [] "x" ["missing"]
     (by decide) (by decide) ⟨"missing", by decide, by decide⟩).1,
   (claim_C4_no_dangling_references.2.2.2.2 [("b", ["a"]), ("a", [])] "a"
     (by decide) ⟨("b", ["a"]), by decide, by decide, by decide⟩).1⟩

end Pfs
